import Mathlib

/-!
Verification of the delta table-storage engine (Rust sources under `src/`):
schema and metadata validation (`schema.rs`, `metadata.rs`), the action
record model (`actions.rs`), and the table engine — create, read, delete,
log replay (`table.rs`).

Modelling conventions:
* Rust `HashMap<String, String>` and `HashSet<String>` are modelled as
  association lists / duplicate-free lists; `HashSet::insert` becomes
  append-if-absent, `contains` becomes list membership.
* Rust `String` is Lean `String`; `Uuid` is modelled as a `String`
  (its JSON wire form); `u64` / `u128` are `Nat`.
* Errors: `DeltaError` keeps the source's constructors; the payloads of
  `IOError`, `JsonError` and `PolarsError` (wrapped OS / serde / polars
  errors) are opaque to every property here and are dropped.
* The filesystem log directory is modelled as a version-indexed list of
  log files.  Log file `i` is named `{:0>20}.json` of `i`, so lexicographic
  order on file names coincides with numeric order on versions.
* JSON parsing of a log line is modelled in two stages, as in serde_json:
  the raw text parses to a `Json` tree (or fails), and the tree decodes to
  an `Action` (or fails).  Encoding is `encodeAction`; the round-trip is
  proved below.
-/

namespace Delta

/-- Error taxonomy from `error.rs`; wrapped payloads are dropped (opaque). -/
inductive DeltaError where
  | IOError
  | JsonError
  | PolarsError
  | InvalidType
  | InvalidTable
  | TableAlreadyExists
deriving DecidableEq, Repr

/-- Column types from `schema.rs` (`DeltaTableType`). -/
inductive DeltaTableType where
  | string
  | long
  | integer
  | short
  | byte
  | float
  | double
  | boolean
  | date
  | timestamp
deriving DecidableEq, Repr

/-- The hardcoded struct tag from `schema.rs` (`DeltaTableStructType`). -/
inductive DeltaTableStructType where
  | struct
deriving DecidableEq, Repr

/-- Column definition from `schema.rs` (`DeltaTableColumnDefinition`);
`metadata : HashMap<String, String>` as an association list. -/
structure DeltaTableColumnDefinition where
  name : String
  typ : DeltaTableType
  nullable : Bool
  metadata : List (String × String)
deriving DecidableEq, Repr

/-- Table schema from `schema.rs` (`DeltaTableSchema`). -/
structure DeltaTableSchema where
  fields : List DeltaTableColumnDefinition
  typ : DeltaTableStructType
deriving DecidableEq, Repr

/-- Format descriptor from `metadata.rs` (`DeltaTableFormat`). -/
structure DeltaTableFormat where
  provider : String
  options : List (String × String)
deriving DecidableEq, Repr

/-- Table metadata from `metadata.rs` (`DeltaTableMetadata`); `id : Uuid`
is modelled as its string form. -/
structure DeltaTableMetadata where
  id : String
  name : String
  format : DeltaTableFormat
  schema_string : String
  partition_columns : List String
  configuration : List (String × String)
deriving DecidableEq, Repr

/-- Action records from `actions.rs` (`Action`). -/
inductive Action where
  | add (path : String) (partition_values : List (String × String))
      (size : Nat) (modification_time : Nat) (data_change : Bool)
  | remove (path : String) (data_change : Bool)
  | metadata (m : DeltaTableMetadata)
deriving DecidableEq, Repr

/-- Rust `str::to_uppercase`, modelled character-wise (`Char.toUpper`
uppercases the ASCII range; every keyword in the map is ASCII). -/
def toUpperAscii (s : String) : String := String.mk (s.data.map Char.toUpper)

/-- `DeltaTableType::from_sql_type` from `schema.rs`: keyword map over the
uppercased SQL type, unknown keywords fail with `InvalidType` (the spec
calls this error InvalidColumnType). -/
def DeltaTableType.from_sql_type (sql_type : String) : Except DeltaError DeltaTableType :=
  match toUpperAscii sql_type with
  | "TEXT" => .ok .string
  | "BIGINT" => .ok .long
  | "INT" => .ok .integer
  | "SMALLINT" => .ok .short
  | "TINYINT" => .ok .byte
  | "FLOAT" => .ok .float
  | "DOUBLE" => .ok .double
  | "BOOL" => .ok .boolean
  | "DATE" => .ok .date
  | "TIMESTAMP" => .ok .timestamp
  | _ => .error .InvalidType

/-- The ten SQL keywords of the spec's keyword map (uppercase forms). -/
def sqlKeywords : List String :=
  ["TEXT", "BIGINT", "INT", "SMALLINT", "TINYINT",
   "FLOAT", "DOUBLE", "BOOL", "DATE", "TIMESTAMP"]

/-- The loop body of `DeltaTableSchema::from_sql`: build the column list,
propagating the first `from_sql_type` failure (the `?` operator). -/
def fieldsFromSql : List (String × String) → Except DeltaError (List DeltaTableColumnDefinition)
  | [] => .ok []
  | (n, t) :: rest => do
    let typ ← DeltaTableType.from_sql_type t
    let fs ← fieldsFromSql rest
    .ok ({ name := n, typ := typ, nullable := false, metadata := [] } :: fs)

/-- `DeltaTableSchema::from_sql` from `schema.rs`. -/
def DeltaTableSchema.from_sql (sql_schema : List (String × String)) :
    Except DeltaError DeltaTableSchema :=
  (fieldsFromSql sql_schema).map fun fs => { fields := fs, typ := .struct }

/-- `DeltaTableColumnDefinition::is_valid` from `schema.rs`: non-nullable
(the `metadata` map is deliberately ignored by the source). -/
def DeltaTableColumnDefinition.is_valid (f : DeltaTableColumnDefinition) : Bool :=
  !f.nullable

/-- The `fields.iter().all(...)` loop of `DeltaTableSchema::is_valid` with
its mutable `seen` set made explicit: reject a field whose name was already
seen, otherwise record it and require the field itself valid. -/
def validFields (seen : List String) : List DeltaTableColumnDefinition → Bool
  | [] => true
  | f :: rest =>
    if f.name ∈ seen then false
    else f.is_valid && validFields (f.name :: seen) rest

/-- `DeltaTableSchema::is_valid` from `schema.rs`. -/
def DeltaTableSchema.is_valid (s : DeltaTableSchema) : Bool :=
  validFields [] s.fields

/-- `DeltaTableFormat::is_valid` from `metadata.rs`. -/
def DeltaTableFormat.is_valid (f : DeltaTableFormat) : Bool :=
  f.provider == "parquet" && f.options.isEmpty

/-- `DeltaTableMetadata::is_valid` from `metadata.rs`: format valid,
no partition columns, no configuration; the schema string is not examined. -/
def DeltaTableMetadata.is_valid (m : DeltaTableMetadata) : Bool :=
  m.format.is_valid && m.partition_columns.isEmpty && m.configuration.isEmpty

/-- JSON trees, the target of serde_json serialization: objects keep their
field order (a serde `HashMap` is modelled as the association list it
serializes to). -/
inductive Json where
  | str (s : String)
  | num (n : Nat)
  | bool (b : Bool)
  | arr (xs : List Json)
  | obj (fields : List (String × Json))

/-- Look a field up in a JSON object (serde decodes struct fields by name). -/
def Json.get : Json → String → Option Json
  | .obj fs, k => fs.lookup k
  | _, _ => none

/-- String payload of a JSON value. -/
def Json.asStr : Json → Option String
  | .str s => some s
  | _ => none

/-- Numeric payload of a JSON value. -/
def Json.asNat : Json → Option Nat
  | .num n => some n
  | _ => none

/-- Boolean payload of a JSON value. -/
def Json.asBool : Json → Option Bool
  | .bool b => some b
  | _ => none

/-- Encode a string-to-string map as a JSON object. -/
def encodeMap (m : List (String × String)) : Json :=
  .obj (m.map fun kv => (kv.1, .str kv.2))

/-- Decode the entries of a JSON object whose values are all strings. -/
def decodeMapEntries : List (String × Json) → Option (List (String × String))
  | [] => some []
  | (k, v) :: rest => do
    let s ← v.asStr
    let tail ← decodeMapEntries rest
    some ((k, s) :: tail)

/-- Decode a JSON object whose values are all strings. -/
def decodeMap : Json → Option (List (String × String))
  | .obj fs => decodeMapEntries fs
  | _ => none

/-- Decode the elements of a JSON array of strings. -/
def decodeStrEntries : List Json → Option (List String)
  | [] => some []
  | x :: rest => do
    let s ← x.asStr
    let tail ← decodeStrEntries rest
    some (s :: tail)

/-- Decode a JSON array of strings. -/
def decodeStrList : Json → Option (List String)
  | .arr xs => decodeStrEntries xs
  | _ => none

/-- Wire form of `DeltaTableFormat` (serde derive, camelCase). -/
def encodeFormat (f : DeltaTableFormat) : Json :=
  .obj [("provider", .str f.provider), ("options", encodeMap f.options)]

/-- Decode of `DeltaTableFormat`. -/
def decodeFormat (j : Json) : Option DeltaTableFormat := do
  let provider ← (j.get "provider").bind Json.asStr
  let options ← (j.get "options").bind decodeMap
  some { provider := provider, options := options }

/-- Wire form of `DeltaTableMetadata` (serde derive, camelCase field names,
declaration order). -/
def encodeMetadata (m : DeltaTableMetadata) : Json :=
  .obj [("id", .str m.id),
        ("name", .str m.name),
        ("format", encodeFormat m.format),
        ("schemaString", .str m.schema_string),
        ("partitionColumns", .arr (m.partition_columns.map Json.str)),
        ("configuration", encodeMap m.configuration)]

/-- Decode of `DeltaTableMetadata`. -/
def decodeMetadata (j : Json) : Option DeltaTableMetadata := do
  let id ← (j.get "id").bind Json.asStr
  let name ← (j.get "name").bind Json.asStr
  let format ← (j.get "format").bind decodeFormat
  let schema_string ← (j.get "schemaString").bind Json.asStr
  let partition_columns ← (j.get "partitionColumns").bind decodeStrList
  let configuration ← (j.get "configuration").bind decodeMap
  some { id := id, name := name, format := format, schema_string := schema_string,
         partition_columns := partition_columns, configuration := configuration }

/-- Wire form of `Action` from `actions.rs`: serde's externally tagged
representation, variant tags camelCased, with the hardcoded deviation
`#[serde(rename = "metaData")]` on the `Metadata` variant. -/
def encodeAction : Action → Json
  | .add path partition_values size modification_time data_change =>
    .obj [("add", .obj [("path", .str path),
                        ("partitionValues", encodeMap partition_values),
                        ("size", .num size),
                        ("modificationTime", .num modification_time),
                        ("dataChange", .bool data_change)])]
  | .remove path data_change =>
    .obj [("remove", .obj [("path", .str path), ("dataChange", .bool data_change)])]
  | .metadata m => .obj [("metaData", encodeMetadata m)]

/-- Decode of `Action`: an externally tagged enum is a single-entry object
whose key selects the variant; struct-variant fields are read by name. -/
def decodeAction : Json → Option Action
  | .obj [(tag, body)] =>
    if tag = "add" then do
      let path ← (body.get "path").bind Json.asStr
      let partition_values ← (body.get "partitionValues").bind decodeMap
      let size ← (body.get "size").bind Json.asNat
      let modification_time ← (body.get "modificationTime").bind Json.asNat
      let data_change ← (body.get "dataChange").bind Json.asBool
      some (.add path partition_values size modification_time data_change)
    else if tag = "remove" then do
      let path ← (body.get "path").bind Json.asStr
      let data_change ← (body.get "dataChange").bind Json.asBool
      some (.remove path data_change)
    else if tag = "metaData" then (decodeMetadata body).map .metadata
    else none
  | _ => none

/-- Decoding inverts encoding on string maps. -/
lemma decodeMap_encodeMap (m : List (String × String)) : decodeMap (encodeMap m) = some m := by
  induction m with
  | nil => rfl
  | cons kv rest ih =>
    simp only [encodeMap, List.map_cons, decodeMap, decodeMapEntries] at ih ⊢
    simp [Json.asStr, ih]

/-- Decoding inverts encoding on string lists. -/
lemma decodeStrList_encode (l : List String) : decodeStrList (.arr (l.map Json.str)) = some l := by
  induction l with
  | nil => rfl
  | cons x rest ih =>
    simp only [decodeStrList, List.map_cons, decodeStrEntries] at ih ⊢
    simp [Json.asStr, ih]

/-- Decoding inverts encoding on format descriptors. -/
lemma decodeFormat_encodeFormat (f : DeltaTableFormat) : decodeFormat (encodeFormat f) = some f := by
  simp [decodeFormat, encodeFormat, Json.get, List.lookup, decodeMap_encodeMap, Json.asStr]

/-- Decoding inverts encoding on table metadata. -/
lemma decodeMetadata_encodeMetadata (m : DeltaTableMetadata) :
    decodeMetadata (encodeMetadata m) = some m := by
  simp [decodeMetadata, encodeMetadata, Json.get, List.lookup, decodeMap_encodeMap,
    decodeFormat_encodeFormat, decodeStrList_encode, Json.asStr]

/-- The outcome of reading one log file from disk and JSON-parsing it:
`none` — the file could not be read (an OS error); `some none` — it was
read but its content is not a single well-formed JSON value; `some (some j)`
— it parses to the JSON tree `j`. -/
def FileParse : Type := Option (Option Json)

/-- `DeltaTable::read_table` from `table.rs`, over the parse outcomes of the
log directory (`fsLog i` is the outcome for version file `i`): read version
0 only; propagate a read failure as `IOError`; return the metadata when the
content decodes to a `Metadata` action, otherwise fail `InvalidTable`
(`serde_json::from_str` failures land here too, via the `if let Ok(..)`). -/
def read_table (fsLog : Nat → FileParse) : Except DeltaError DeltaTableMetadata :=
  match fsLog 0 with
  | none => .error .IOError
  | some content =>
    match content.bind decodeAction with
    | some (.metadata m) => .ok m
    | _ => .error .InvalidTable


def insertIfAbsent (x : String) (l : List String) : List String :=
  if x ∈ l then l else l ++ [x]

def replayAction : List String × List String → Action → List String × List String
  | (removed_files, data_files), .add path _ _ _ _ =>
    if path ∈ removed_files then (removed_files, data_files)
    else (removed_files, insertIfAbsent path data_files)
  | (removed_files, data_files), .remove path _ =>
    (insertIfAbsent path removed_files, data_files)
  | st, .metadata _ => st

def get_datafiles (logs : List (List Action)) : List String :=
  ((logs.reverse).foldl (fun st file => file.foldl replayAction st) ([], [])).2

def scanSeq (logs : List (List Action)) : List Action := (logs.reverse).flatten

def isAddFor (p : String) : Action → Bool
  | .add q _ _ _ _ => q == p
  | _ => false

def isRemoveFor (p : String) : Action → Bool
  | .remove q _ => q == p
  | _ => false

def firstIsAdd (p : String) : List Action → Bool
  | [] => false
  | .add q _ _ _ _ :: rest => if q = p then true else firstIsAdd p rest
  | .remove q _ :: rest => if q = p then false else firstIsAdd p rest
  | .metadata _ :: rest => firstIsAdd p rest

lemma foldl_files_eq_join (L : List (List Action)) (st : List String × List String) :
    L.foldl (fun st file => file.foldl replayAction st) st = (L.flatten).foldl replayAction st := by
  induction L generalizing st with
  | nil => rfl
  | cons l L ih => simp [List.flatten_cons, List.foldl_append, ih]

lemma mem_insertIfAbsent (x y : String) (l : List String) :
    y ∈ insertIfAbsent x l ↔ y = x ∨ y ∈ l := by
  simp only [insertIfAbsent]
  split
  · constructor
    · exact fun h => Or.inr h
    · rintro (rfl | h) <;> simp_all
  · simp [or_comm]

lemma mem_foldl_replay (acts : List Action) (removed data : List String) (p : String) :
    p ∈ (acts.foldl replayAction (removed, data)).2 ↔
      p ∈ data ∨ (p ∉ removed ∧ firstIsAdd p acts = true) := by
  induction acts generalizing removed data with
  | nil => simp [firstIsAdd]
  | cons a rest ih =>
    cases a with
    | add q pv sz mt dc =>
      simp only [List.foldl_cons, replayAction]
      by_cases hq : q = p
      · subst hq
        by_cases hr : q ∈ removed
        · simp [hr, ih, firstIsAdd, hr]
        · simp [hr, ih, firstIsAdd, mem_insertIfAbsent]
      · by_cases hr : q ∈ removed
        · simp [hr, ih, firstIsAdd, hq]
        · simp [hr, ih, firstIsAdd, hq, mem_insertIfAbsent, Ne.symm hq]
    | remove q dc =>
      simp only [List.foldl_cons, replayAction]
      by_cases hq : q = p
      · subst hq
        simp [ih, firstIsAdd, mem_insertIfAbsent]
      · simp [ih, firstIsAdd, hq, mem_insertIfAbsent, Ne.symm hq]
    | metadata m =>
      simp only [List.foldl_cons, replayAction]
      simp [ih, firstIsAdd]


lemma nodup_insertIfAbsent (x : String) (l : List String) (h : l.Nodup) :
    (insertIfAbsent x l).Nodup := by
  simp only [insertIfAbsent]
  split
  · exact h
  · rename_i hx
    simp [List.nodup_append, h, hx]

lemma nodup_foldl_replay (acts : List Action) (removed data : List String) (h : data.Nodup) :
    ((acts.foldl replayAction (removed, data)).2).Nodup := by
  induction acts generalizing removed data with
  | nil => exact h
  | cons a rest ih =>
    cases a with
    | add q pv sz mt dc =>
      simp only [List.foldl_cons, replayAction]
      split
      · exact ih _ _ h
      · exact ih _ _ (nodup_insertIfAbsent _ _ h)
    | remove q dc =>
      simp only [List.foldl_cons, replayAction]
      exact ih _ _ h
    | metadata m =>
      simp only [List.foldl_cons, replayAction]
      exact ih _ _ h

lemma split_cons_iff (p : String) (b : Action) (rest : List Action)
    (hb1 : isAddFor p b = false) (hb2 : isRemoveFor p b = false) :
    (∃ pre a post, b :: rest = pre ++ a :: post ∧ isAddFor p a = true ∧
        ∀ c ∈ pre, isRemoveFor p c = false) ↔
    (∃ pre a post, rest = pre ++ a :: post ∧ isAddFor p a = true ∧
        ∀ c ∈ pre, isRemoveFor p c = false) := by
  constructor
  · rintro ⟨pre, a, post, heq, ha, hpre⟩
    cases pre with
    | nil =>
      simp only [List.nil_append, List.cons.injEq] at heq
      obtain ⟨rfl, rfl⟩ := heq
      rw [ha] at hb1
      cases hb1
    | cons c pre =>
      simp only [List.cons_append, List.cons.injEq] at heq
      obtain ⟨rfl, heq⟩ := heq
      exact ⟨pre, a, post, heq, ha, fun c hc => hpre c (List.mem_cons_of_mem _ hc)⟩
  · rintro ⟨pre, a, post, heq, ha, hpre⟩
    refine ⟨b :: pre, a, post, by rw [heq, List.cons_append], ha, ?_⟩
    intro c hc
    rcases List.mem_cons.mp hc with rfl | hc
    · exact hb2
    · exact hpre c hc

lemma firstIsAdd_iff_split (p : String) (acts : List Action) :
    firstIsAdd p acts = true ↔
      ∃ pre a post, acts = pre ++ a :: post ∧ isAddFor p a = true ∧
        ∀ b ∈ pre, isRemoveFor p b = false := by
  induction acts with
  | nil =>
    simp only [firstIsAdd]
    constructor
    · intro h
      cases h
    · rintro ⟨pre, a, post, heq, -, -⟩
      cases pre <;> simp at heq
  | cons b rest ih =>
    cases b with
    | add q pv sz mt dc =>
      by_cases hq : q = p
      · subst hq
        constructor
        · intro _
          exact ⟨[], .add q pv sz mt dc, rest, rfl, by simp [isAddFor], by simp⟩
        · intro _
          simp [firstIsAdd]
      · simp only [firstIsAdd, if_neg hq]
        rw [ih]
        exact (split_cons_iff p _ rest (by simp [isAddFor, hq]) (by simp [isRemoveFor])).symm
    | remove q dc =>
      by_cases hq : q = p
      · subst hq
        constructor
        · intro h
          exact absurd h (by simp [firstIsAdd])
        · rintro ⟨pre, a, post, heq, ha, hpre⟩
          exfalso
          cases pre with
          | nil =>
            simp only [List.nil_append, List.cons.injEq] at heq
            obtain ⟨rfl, rfl⟩ := heq
            simp [isAddFor] at ha
          | cons c pre =>
            simp only [List.cons_append, List.cons.injEq] at heq
            obtain ⟨rfl, -⟩ := heq
            have := hpre _ (List.mem_cons_self _ _)
            simp [isRemoveFor] at this
      · simp only [firstIsAdd, if_neg hq]
        rw [ih]
        exact (split_cons_iff p _ rest (by simp [isAddFor]) (by simp [isRemoveFor, hq])).symm
    | metadata m =>
      simp only [firstIsAdd]
      rw [ih]
      exact (split_cons_iff p _ rest (by simp [isAddFor]) (by simp [isRemoveFor])).symm

/-- C1: log replay (`get_datafiles`) scans the log files in descending
version order and returns exactly the deduplicated set of paths `p` such
that the descending scan (`scanSeq`) contains an Add for `p` with no Remove
for `p` anywhere before it — a Remove seen earlier suppresses any
chronologically older Add — while Metadata actions leave the replay state
untouched. -/
theorem get_datafiles_spec :
    (∀ logs : List (List Action), (get_datafiles logs).Nodup) ∧
    (∀ (logs : List (List Action)) (p : String),
      p ∈ get_datafiles logs ↔
        ∃ pre a post, scanSeq logs = pre ++ a :: post ∧ isAddFor p a = true ∧
          ∀ b ∈ pre, isRemoveFor p b = false) ∧
    (∀ (st : List String × List String) (m : DeltaTableMetadata),
      replayAction st (Action.metadata m) = st) := by
  refine ⟨?_, ?_, ?_⟩
  · intro logs
    rw [get_datafiles, foldl_files_eq_join]
    exact nodup_foldl_replay _ _ _ List.nodup_nil
  · intro logs p
    rw [get_datafiles, foldl_files_eq_join, mem_foldl_replay]
    simp only [List.not_mem_nil, false_or, not_false_iff, true_and]
    rw [firstIsAdd_iff_split]
    rfl
  · intro st m
    cases st
    rfl

lemma read_table_eq_ok_iff (f : Nat → FileParse) (m : DeltaTableMetadata) :
    read_table f = .ok m ↔
      ∃ j, f 0 = some (some j) ∧ decodeAction j = some (.metadata m) := by
  constructor
  · intro h
    unfold read_table at h
    split at h
    · cases h
    · rename_i content hcontent
      split at h
      · rename_i m2 hm2
        cases h
        rcases content with _ | j
        · simp [Option.bind] at hm2
        · exact ⟨j, hcontent, hm2⟩
      · cases h
  · rintro ⟨j, hj, hd⟩
    unfold read_table
    rw [hj]
    simp [hd]

lemma read_table_invalid (f : Nat → FileParse) (c : Option Json) (hf : f 0 = some c)
    (h : ∀ m, c.bind decodeAction ≠ some (.metadata m)) :
    read_table f = .error .InvalidTable := by
  unfold read_table
  rw [hf]
  rcases hd : c.bind decodeAction with _ | a
  · simp [hd]
  · cases a with
    | add p pv sz mt dc => simp [hd]
    | remove p dc => simp [hd]
    | metadata mm => exact absurd hd (h mm)

lemma read_table_error_cases (f : Nat → FileParse) (e : DeltaError)
    (he : read_table f = .error e) :
    (e = .IOError ∧ f 0 = none) ∨
    (e = .InvalidTable ∧ ∃ c, f 0 = some c ∧
      ∀ m, c.bind decodeAction ≠ some (.metadata m)) := by
  unfold read_table at he
  split at he
  · rename_i hf0
    cases he
    exact Or.inl ⟨rfl, hf0⟩
  · rename_i content hcontent
    split at he
    · cases he
    · rename_i hne
      cases he
      refine Or.inr ⟨rfl, content, hcontent, ?_⟩
      intro m hm
      exact hne m hm

/-- C3: `read_table` consults only log version 0 (two functions agreeing on
version 0 read identically), succeeds with exactly the Metadata action
stored there, and fails with `InvalidTable` whenever the version-0 content
does not parse as a single Metadata action (an Add, a Remove, or
unparseable content all land there). -/
theorem read_table_spec :
    (∀ f g : Nat → FileParse, f 0 = g 0 → read_table f = read_table g) ∧
    (∀ (f : Nat → FileParse) (m : DeltaTableMetadata),
      read_table f = .ok m ↔
        ∃ j, f 0 = some (some j) ∧ decodeAction j = some (.metadata m)) ∧
    (∀ (f : Nat → FileParse) (c : Option Json), f 0 = some c →
      (∀ m, c.bind decodeAction ≠ some (.metadata m)) →
      read_table f = .error .InvalidTable) := by
  refine ⟨?_, read_table_eq_ok_iff, read_table_invalid⟩
  intro f g h
  unfold read_table
  rw [h]

/-- C9: `read_table` never checks metadata validity: whenever version 0
decodes to a single Metadata action the handle is returned with that
metadata (no `is_valid` hypothesis), errors arise only from a failed read
of version 0 (`IOError`) or content that is not a single Metadata action
(`InvalidTable`), and a version-0 file carrying invalid metadata (provider
"csv") is indeed accepted. -/
theorem read_table_skips_validity :
    (∀ (f : Nat → FileParse) (j : Json) (m : DeltaTableMetadata),
      f 0 = some (some j) → decodeAction j = some (.metadata m) → read_table f = .ok m) ∧
    (∀ (f : Nat → FileParse) (e : DeltaError), read_table f = .error e →
      (e = .IOError ∧ f 0 = none) ∨
      (e = .InvalidTable ∧ ∃ c, f 0 = some c ∧
        ∀ m, c.bind decodeAction ≠ some (.metadata m))) ∧
    (∃ (f : Nat → FileParse) (m : DeltaTableMetadata),
      read_table f = .ok m ∧ m.is_valid = false) := by
  refine ⟨?_, read_table_error_cases, ?_⟩
  · intro f j m hf hd
    exact (read_table_eq_ok_iff f m).mpr ⟨j, hf, hd⟩
  · refine ⟨fun _ => some (some (encodeAction (.metadata
      { id := "0", name := "t",
        format := { provider := "csv", options := [] },
        schema_string := "", partition_columns := [], configuration := [] }))),
      { id := "0", name := "t",
        format := { provider := "csv", options := [] },
        schema_string := "", partition_columns := [], configuration := [] }, ?_, rfl⟩
    exact (read_table_eq_ok_iff _ _).mpr ⟨_, rfl, by
      simp [encodeAction, decodeAction, decodeMetadata_encodeMetadata]⟩

/-- C8: serializing any `Action` of any of the three tags to JSON and
deserializing the result yields a value equal to the original. -/
theorem action_roundtrip (a : Action) : decodeAction (encodeAction a) = some a := by
  cases a with
  | add p pv sz mt dc =>
    simp [encodeAction, decodeAction, Json.get, List.lookup, decodeMap_encodeMap,
      Json.asStr, Json.asNat, Json.asBool]
  | remove p dc =>
    simp [encodeAction, decodeAction, Json.get, List.lookup, Json.asStr, Json.asBool]
  | metadata m =>
    simp [encodeAction, decodeAction, decodeMetadata_encodeMetadata]

/-- Escape one character for a JSON string literal, as serde_json does for
the quote, backslash and the common control characters.  (serde_json also
escapes the remaining control characters as \u00XX; no property below
depends on the rendered text, which only feeds `schema_string`.) -/
def escapeChar (c : Char) : String :=
  if c = '"' then "\\\""
  else if c = '\\' then "\\\\"
  else if c = '\n' then "\\n"
  else if c = '\t' then "\\t"
  else if c = '\r' then "\\r"
  else String.singleton c

/-- Escape a whole string for a JSON string literal. -/
def escapeJson (s : String) : String := String.join (s.toList.map escapeChar)

mutual

/-- Render a JSON tree to text the way serde_json::to_string does
(no whitespace, fields in order). -/
def Json.render : Json → String
  | .str s => "\"" ++ escapeJson s ++ "\""
  | .num n => toString n
  | .bool b => if b then "true" else "false"
  | .arr xs => "[" ++ renderElems xs ++ "]"
  | .obj fs => "\x7b" ++ renderFields fs ++ "\x7d"

/-- Render array elements, comma separated. -/
def renderElems : List Json → String
  | [] => ""
  | [x] => Json.render x
  | x :: y :: rest => Json.render x ++ "," ++ renderElems (y :: rest)

/-- Render object fields, comma separated. -/
def renderFields : List (String × Json) → String
  | [] => ""
  | [(k, v)] => "\"" ++ escapeJson k ++ "\":" ++ Json.render v
  | (k, v) :: kv :: rest =>
    "\"" ++ escapeJson k ++ "\":" ++ Json.render v ++ "," ++ renderFields (kv :: rest)

end

/-- Wire form of a `DeltaTableType` unit variant (serde, camelCase). -/
def encodeType : DeltaTableType → Json
  | .string => .str "string"
  | .long => .str "long"
  | .integer => .str "integer"
  | .short => .str "short"
  | .byte => .str "byte"
  | .float => .str "float"
  | .double => .str "double"
  | .boolean => .str "boolean"
  | .date => .str "date"
  | .timestamp => .str "timestamp"

/-- Wire form of a column definition (`typ` is renamed to "type"). -/
def encodeField (f : DeltaTableColumnDefinition) : Json :=
  .obj [("name", .str f.name), ("type", encodeType f.typ),
        ("nullable", .bool f.nullable), ("metadata", encodeMap f.metadata)]

/-- Wire form of a table schema (`typ` renamed to "type", always "struct"). -/
def encodeSchema (s : DeltaTableSchema) : Json :=
  .obj [("fields", .arr (s.fields.map encodeField)), ("type", .str "struct")]

/-- Format `{:0>20}` of `table.rs`: zero-pad a number to 20 characters. -/
def pad20 (n : Nat) : String :=
  let s := toString n
  String.mk (List.replicate (20 - s.length) '0') ++ s

/-- `DeltaTable::log_file`: the log file name of a version. -/
def log_file (idx : Nat) : String := pad20 idx ++ ".json"

/-- `DeltaTable::next_log_file`: the name for the next log version, computed
as the number of entries in the log directory.  In this model the log
directory holds exactly the version files `0 .. len-1`, so the count is the
list length. -/
def next_log_file (logs : List (List Action)) : String := log_file logs.length

/-- A filesystem write performed by the engine.  The content of a written
log file is modelled as its parsed list of actions (one action per line of
newline-delimited JSON; the text encoding of a single action is
`(encodeAction a).render`, and decoding is verified separately). -/
inductive FsOp where
  | createDir (path : String)
  | writeLog (path : String) (content : List Action)
deriving DecidableEq

/-- `DeltaTable::create_table` from `table.rs`.  `uuid` stands for the
freshly drawn `Uuid::new_v4()` and `dirExists` for whether
`fs::create_dir(base_dir)` hits `AlreadyExists`.  Returns the filesystem
writes performed (in order) with the outcome: validate the schema, build
and validate the metadata, create the base and log directories, then write
log version 0 (the just-created log directory is empty, so
`next_log_file` yields version 0) holding the single Metadata action. -/
def create_table (uuid : String) (name : String) (schema : List (String × String))
    (dirExists : Bool) : List FsOp × Except DeltaError DeltaTableMetadata :=
  match DeltaTableSchema.from_sql schema with
  | .error e => ([], .error e)
  | .ok s =>
    if !s.is_valid then ([], .error .InvalidTable)
    else
      let metadata : DeltaTableMetadata :=
        { id := uuid, name := name,
          format := { provider := "parquet", options := [] },
          schema_string := (encodeSchema s).render,
          partition_columns := [], configuration := [] }
      if !metadata.is_valid then ([], .error .InvalidTable)
      else if dirExists then ([], .error .TableAlreadyExists)
      else
        let base_dir := "tables/" ++ name
        let logs_dir := "tables/" ++ name ++ "/_delta_log"
        ([.createDir base_dir, .createDir logs_dir,
          .writeLog (logs_dir ++ "/" ++ log_file 0) [.metadata metadata]],
         .ok metadata)

lemma from_sql_type_error_iff (t : String) :
    DeltaTableType.from_sql_type t = .error .InvalidType ↔ toUpperAscii t ∉ sqlKeywords := by
  unfold DeltaTableType.from_sql_type sqlKeywords
  split <;> simp_all

lemma from_sql_type_error_val (t : String) (e : DeltaError)
    (h : DeltaTableType.from_sql_type t = .error e) : e = .InvalidType := by
  unfold DeltaTableType.from_sql_type at h
  split at h <;> simp_all

lemma from_sql_type_ok_of_keyword (t : String) (h : toUpperAscii t ∈ sqlKeywords) :
    ∃ ty, DeltaTableType.from_sql_type t = .ok ty := by
  rcases he : DeltaTableType.from_sql_type t with e | ty
  · rw [from_sql_type_error_val t e he] at he
    exact absurd h ((from_sql_type_error_iff t).mp he)
  · exact ⟨ty, rfl⟩

lemma fieldsFromSql_ok (cols : List (String × String))
    (h : ∀ c ∈ cols, toUpperAscii c.2 ∈ sqlKeywords) :
    ∃ fs, fieldsFromSql cols = .ok fs ∧
      fs.map (fun f => f.name) = cols.map Prod.fst ∧ ∀ f ∈ fs, f.nullable = false := by
  induction cols with
  | nil => exact ⟨[], rfl, rfl, by simp⟩
  | cons c rest ih =>
    obtain ⟨n, t⟩ := c
    obtain ⟨fs, hfs, hnames, hnull⟩ := ih fun x hx => h x (List.mem_cons_of_mem _ hx)
    obtain ⟨ty, hty⟩ := from_sql_type_ok_of_keyword t (h (n, t) (List.mem_cons_self _ _))
    refine ⟨{ name := n, typ := ty, nullable := false, metadata := [] } :: fs, ?_, ?_, ?_⟩
    · simp only [fieldsFromSql, hty, hfs]
      rfl
    · simp [hnames]
    · simp only [List.forall_mem_cons]
      exact ⟨trivial, hnull⟩

lemma fieldsFromSql_error (cols : List (String × String))
    (h : ∃ c ∈ cols, toUpperAscii c.2 ∉ sqlKeywords) :
    fieldsFromSql cols = .error .InvalidType := by
  induction cols with
  | nil => simp at h
  | cons c rest ih =>
    obtain ⟨n, t⟩ := c
    by_cases hk : toUpperAscii t ∈ sqlKeywords
    · obtain ⟨c, hc, hbad⟩ := h
      rcases List.mem_cons.mp hc with rfl | hc
      · exact absurd hk hbad
      · obtain ⟨ty, hty⟩ := from_sql_type_ok_of_keyword t hk
        have hrest := ih ⟨c, hc, hbad⟩
        simp only [fieldsFromSql, hty, hrest]
        rfl
    · simp only [fieldsFromSql, (from_sql_type_error_iff t).mpr hk]
      rfl

lemma fieldsFromSql_error_val (cols : List (String × String)) (e : DeltaError)
    (h : fieldsFromSql cols = .error e) : e = .InvalidType := by
  induction cols with
  | nil => cases h
  | cons c rest ih =>
    obtain ⟨n, t⟩ := c
    simp only [fieldsFromSql] at h
    rcases ht : DeltaTableType.from_sql_type t with e2 | ty
    · rw [ht] at h
      have h2 : (Except.error e2 : Except DeltaError (List DeltaTableColumnDefinition)) =
          Except.error e := h
      injection h2 with h3
      subst h3
      exact from_sql_type_error_val t e2 ht
    · rw [ht] at h
      rcases hr : fieldsFromSql rest with e2 | fs
      · rw [hr] at h
        have h2 : (Except.error e2 : Except DeltaError (List DeltaTableColumnDefinition)) =
            Except.error e := h
        injection h2 with h3
        subst h3
        exact ih hr
      · rw [hr] at h
        have h2 : (Except.ok ({ name := n, typ := ty, nullable := false, metadata := [] } :: fs) :
            Except DeltaError (List DeltaTableColumnDefinition)) = Except.error e := h
        cases h2

lemma from_sql_error_val (cols : List (String × String)) (e : DeltaError)
    (h : DeltaTableSchema.from_sql cols = .error e) : e = .InvalidType := by
  unfold DeltaTableSchema.from_sql at h
  rcases hf : fieldsFromSql cols with e2 | fs
  · rw [hf] at h
    have h2 : (Except.error e2 : Except DeltaError DeltaTableSchema) = Except.error e := h
    injection h2 with h3
    subst h3
    exact fieldsFromSql_error_val cols e2 hf
  · rw [hf] at h
    have h2 : (Except.ok { fields := fs, typ := .struct } :
        Except DeltaError DeltaTableSchema) = Except.error e := h
    cases h2

lemma validFields_iff (fields : List DeltaTableColumnDefinition) (seen : List String) :
    validFields seen fields = true ↔
      ((fields.map fun f => f.name).Nodup ∧ (∀ f ∈ fields, f.name ∉ seen) ∧
       ∀ f ∈ fields, f.nullable = false) := by
  induction fields generalizing seen with
  | nil => simp [validFields]
  | cons f rest ih =>
    simp only [validFields]
    by_cases hseen : f.name ∈ seen
    · simp [hseen, List.forall_mem_cons]
    · simp only [hseen, if_false, Bool.and_eq_true, ih, DeltaTableColumnDefinition.is_valid,
        Bool.not_eq_eq_eq_not, Bool.not_true, List.map_cons, List.nodup_cons,
        List.forall_mem_cons, List.mem_cons, List.mem_map, not_or, not_exists]
      aesop

lemma is_valid_iff (s : DeltaTableSchema) :
    s.is_valid = true ↔
      ((s.fields.map fun f => f.name).Nodup ∧ ∀ f ∈ s.fields, f.nullable = false) := by
  unfold DeltaTableSchema.is_valid
  rw [validFields_iff]
  simp

lemma create_metadata_is_valid (uuid nm schemaStr : String) :
    (DeltaTableMetadata.mk uuid nm ⟨"parquet", []⟩ schemaStr [] []).is_valid = true := by
  rfl

/-- C5: `from_sql_type` fails with `InvalidType` (the spec's
InvalidColumnType) exactly on keywords whose uppercase form is outside the
ten-keyword map, and a column list containing such a keyword makes
`from_sql` fail with that error (no schema produced) and `create_table`
fail with it performing no filesystem write. -/
theorem from_sql_invalid_type :
    (∀ t : String,
      DeltaTableType.from_sql_type t = .error .InvalidType ↔ toUpperAscii t ∉ sqlKeywords) ∧
    (∀ (uuid nm : String) (cols : List (String × String)) (d : Bool),
      (∃ c ∈ cols, toUpperAscii c.2 ∉ sqlKeywords) →
      DeltaTableSchema.from_sql cols = .error .InvalidType ∧
      create_table uuid nm cols d = ([], .error .InvalidType)) := by
  refine ⟨from_sql_type_error_iff, ?_⟩
  intro uuid nm cols d h
  have hf : fieldsFromSql cols = .error .InvalidType := fieldsFromSql_error cols h
  have hsql : DeltaTableSchema.from_sql cols = .error .InvalidType := by
    unfold DeltaTableSchema.from_sql
    rw [hf]
    rfl
  exact ⟨hsql, by simp only [create_table, hsql]⟩

/-- C6: `DeltaTableSchema::is_valid` is true iff the field names are
pairwise distinct and every field is non-nullable; hence `create_table` on
a column list with duplicate names, all of whose SQL types resolve, fails
with `InvalidTable` (and writes nothing). -/
theorem schema_is_valid_spec :
    (∀ s : DeltaTableSchema, s.is_valid = true ↔
      ((s.fields.map fun f => f.name).Nodup ∧ ∀ f ∈ s.fields, f.nullable = false)) ∧
    (∀ (uuid nm : String) (cols : List (String × String)) (d : Bool),
      (∀ c ∈ cols, toUpperAscii c.2 ∈ sqlKeywords) → ¬ (cols.map Prod.fst).Nodup →
      create_table uuid nm cols d = ([], .error .InvalidTable)) := by
  refine ⟨is_valid_iff, ?_⟩
  intro uuid nm cols d hok hdup
  obtain ⟨fs, hfs, hnames, hnull⟩ := fieldsFromSql_ok cols hok
  have hsql : DeltaTableSchema.from_sql cols = .ok { fields := fs, typ := .struct } := by
    unfold DeltaTableSchema.from_sql
    rw [hfs]
    rfl
  have hsv : DeltaTableSchema.is_valid { fields := fs, typ := .struct } = false := by
    rw [Bool.eq_false_iff]
    intro hv
    exact hdup (hnames ▸ ((is_valid_iff _).mp hv).1)
  simp only [create_table, hsql, hsv, Bool.not_false, if_true]

/-- C7: `DeltaTableFormat::is_valid` is provider = "parquet" with empty
options; `DeltaTableMetadata::is_valid` is exactly format validity plus
empty partition columns and empty configuration, and it is insensitive to
the stored schema string, so metadata carrying any (even invalid or
unparseable) schema string can still be valid. -/
theorem metadata_is_valid_spec :
    (∀ f : DeltaTableFormat,
      f.is_valid = true ↔ (f.provider = "parquet" ∧ f.options = [])) ∧
    (∀ m : DeltaTableMetadata, m.is_valid = true ↔
      (m.format.provider = "parquet" ∧ m.format.options = [] ∧
       m.partition_columns = [] ∧ m.configuration = [])) ∧
    (∀ (m : DeltaTableMetadata) (s : String),
      ({ m with schema_string := s } : DeltaTableMetadata).is_valid = m.is_valid) := by
  refine ⟨?_, ?_, ?_⟩
  · intro f
    simp [DeltaTableFormat.is_valid, List.isEmpty_iff]
  · intro m
    simp [DeltaTableMetadata.is_valid, DeltaTableFormat.is_valid, List.isEmpty_iff, and_assoc]
  · intro m s
    rfl

/-- C10: the metadata validity check inside `create_table` can never fail:
the metadata built there (provider "parquet", empty options, partitions and
configuration) is always valid, so `create_table` returns `InvalidTable`
exactly when schema construction succeeded and schema validation failed. -/
theorem create_metadata_always_valid :
    (∀ uuid nm schemaStr : String,
      (DeltaTableMetadata.mk uuid nm ⟨"parquet", []⟩ schemaStr [] []).is_valid = true) ∧
    (∀ (uuid nm : String) (cols : List (String × String)) (d : Bool),
      (create_table uuid nm cols d).2 = .error .InvalidTable ↔
        ∃ s, DeltaTableSchema.from_sql cols = .ok s ∧ s.is_valid = false) := by
  refine ⟨create_metadata_is_valid, ?_⟩
  intro uuid nm cols d
  constructor
  · intro h
    rcases he : DeltaTableSchema.from_sql cols with e | s
    · have h2 := from_sql_error_val cols e he
      subst h2
      simp only [create_table, he] at h
      cases h
    · rcases hv : s.is_valid with _ | _
      · exact ⟨s, he ▸ rfl, hv⟩
      · exfalso
        simp only [create_table, he, hv, Bool.not_true, if_false,
          create_metadata_is_valid, if_true] at h
        rcases d with _ | _ <;> simp at h
  · rintro ⟨s, he, hv⟩
    simp only [create_table, he, hv, Bool.not_false, if_true]

/-- `DataFile` from `data_file.rs`: name and size of a persisted data file. -/
structure DataFile where
  name : String
  size : Nat
deriving DecidableEq, Repr

/-- The engine state `delete` works over, for a table whose rows are drawn
from `Row`: the log directory (version-indexed parsed log files), the number
of entries in the base directory (the `_delta_log` subdirectory plus the
data files — `next_data_file` counts them), and the Columnar File Store
read function (`scan_parquet`, total here: collaborator failures are out
of scope). -/
structure TableState (Row : Type) where
  logs : List (List Action)
  baseDirCount : Nat
  contents : String → List Row

/-- `DeltaTable::next_data_file`: `{:0>20}.parquet` of (base-directory entry
count minus one, the minus one compensating for the `_delta_log` entry). -/
def next_data_file (baseDirCount : Nat) : String :=
  pad20 (baseDirCount - 1) ++ ".parquet"

/-- Loop state of `DeltaTable::delete`: the created and logically deleted
files, plus the evolving base directory and file store. -/
structure DeleteAcc (Row : Type) where
  created_files : List DataFile
  deleted_files : List String
  baseDirCount : Nat
  contents : String → List Row
  written : List (String × List Row)

/-- One iteration of the `for file in files` loop of `DeltaTable::delete`:
read the file, keep the rows where the predicate does NOT hold (the
`SELECT * FROM df WHERE NOT (expr)` query; `rowMatches` is the Predicate
Evaluator for `expr`); skip the file when no row matched, otherwise write
the surviving rows as a new data file (`write_data_file`, whose byte size
is the Columnar File Store's `fileSize`) and record the old path. -/
def deleteStep (rowMatches : Row → Bool) (fileSize : List Row → Nat)
    (acc : DeleteAcc Row) (file : String) : DeleteAcc Row :=
  let df := acc.contents file
  let updated := df.filter fun r => !rowMatches r
  if updated.length = df.length then acc
  else
    let nm := next_data_file acc.baseDirCount
    { created_files := acc.created_files ++ [{ name := nm, size := fileSize updated }]
      deleted_files := acc.deleted_files ++ [file]
      baseDirCount := acc.baseDirCount + 1
      contents := fun p => if p = nm then updated else acc.contents p
      written := acc.written ++ [(nm, updated)] }

/-- Result of `DeltaTable::delete`: the new engine state, the data files
physically written, and the content of the one log file appended. -/
structure DeleteResult (Row : Type) where
  state : TableState Row
  newDataFiles : List (String × List Row)
  newLog : List Action

/-- `DeltaTable::delete` from `table.rs`.  `now` is the wall-clock
`modification_time`, captured once after the loop and before the actions
are serialized.  The live set is iterated in the enumeration order of
`get_datafiles` (the source iterates a `HashSet`, whose order is
unspecified).  After the loop one log file is written at `next_log_file`
— version `logs.length` — containing every new Add action first, then
every Remove action; the write happens even when both lists are empty. -/
def delete (rowMatches : Row → Bool) (fileSize : List Row → Nat) (now : Nat)
    (st : TableState Row) : DeleteResult Row :=
  let files := get_datafiles st.logs
  let acc := files.foldl (deleteStep rowMatches fileSize)
    { created_files := [], deleted_files := [], baseDirCount := st.baseDirCount,
      contents := st.contents, written := [] }
  let adds := acc.created_files.map fun created =>
    Action.add created.name [] created.size now true
  let removes := acc.deleted_files.map fun deleted => Action.remove deleted true
  let newLog := adds ++ removes
  { state := { logs := st.logs ++ [newLog], baseDirCount := acc.baseDirCount,
               contents := acc.contents }
    newDataFiles := acc.written
    newLog := newLog }

lemma deleteStep_skip {Row : Type} (rowMatches : Row → Bool) (fileSize : List Row → Nat)
    (acc : DeleteAcc Row) (file : String)
    (h : ∀ r ∈ acc.contents file, rowMatches r = false) :
    deleteStep rowMatches fileSize acc file = acc := by
  unfold deleteStep
  have hfix : (acc.contents file).filter (fun r => !rowMatches r) = acc.contents file :=
    List.filter_eq_self.mpr fun r hr => by simp [h r hr]
  simp [hfix]

lemma deleteLoop_skip {Row : Type} (rowMatches : Row → Bool) (fileSize : List Row → Nat)
    (files : List String) (acc : DeleteAcc Row)
    (h : ∀ f ∈ files, ∀ r ∈ acc.contents f, rowMatches r = false) :
    files.foldl (deleteStep rowMatches fileSize) acc = acc := by
  induction files with
  | nil => rfl
  | cons f rest ih =>
    rw [List.foldl_cons, deleteStep_skip rowMatches fileSize acc f (h f (List.mem_cons_self _ _))]
    exact ih fun g hg => h g (List.mem_cons_of_mem _ hg)

/-- C4: every delete appends exactly one new log version whose content is
all the new Add actions first and then all the Remove actions, every Add
carrying the single `modification_time` value `now` captured once before
serialization (in particular this holds for every delete that removes at
least one row). -/
theorem delete_commit_shape (Row : Type) (rowMatches : Row → Bool)
    (fileSize : List Row → Nat) (now : Nat) (st : TableState Row) :
    ∃ adds removes,
      (delete rowMatches fileSize now st).state.logs
          = st.logs ++ [(delete rowMatches fileSize now st).newLog] ∧
      (delete rowMatches fileSize now st).newLog = adds ++ removes ∧
      (∀ a ∈ adds, ∃ pa pv sz dc, a = Action.add pa pv sz now dc) ∧
      (∀ r ∈ removes, ∃ pr dc, r = Action.remove pr dc) := by
  refine ⟨_, _, rfl, rfl, ?_, ?_⟩
  · intro a ha
    obtain ⟨c, -, rfl⟩ := List.mem_map.mp ha
    exact ⟨c.name, [], c.size, true, rfl⟩
  · intro r hr
    obtain ⟨d, -, rfl⟩ := List.mem_map.mp hr
    exact ⟨d, true, rfl⟩

/-- C2 (amended): when the predicate matches no row of any live data file,
delete writes no new data file and appends no Add and no Remove action, and
leaves the base-directory entry count unchanged — but it still appends one
empty log version, so the log directory entry count grows by exactly one
(the original claim's "log directory entry count unchanged" fails). -/
theorem delete_no_match (Row : Type) (rowMatches : Row → Bool)
    (fileSize : List Row → Nat) (now : Nat) (st : TableState Row)
    (h : ∀ f ∈ get_datafiles st.logs, ∀ r ∈ st.contents f, rowMatches r = false) :
    (delete rowMatches fileSize now st).newDataFiles = [] ∧
    (delete rowMatches fileSize now st).newLog = [] ∧
    (delete rowMatches fileSize now st).state.baseDirCount = st.baseDirCount ∧
    (delete rowMatches fileSize now st).state.logs = st.logs ++ [[]] ∧
    (delete rowMatches fileSize now st).state.logs.length = st.logs.length + 1 := by
  have hloop := deleteLoop_skip rowMatches fileSize (get_datafiles st.logs)
    { created_files := [], deleted_files := [], baseDirCount := st.baseDirCount,
      contents := st.contents, written := [] } h
  simp only [delete, hloop]
  simp

/-- A concrete two-version table state over `Row := Nat`: version 0 holds
the Metadata action, version 1 adds data file "f" whose content is the
single row `1`. -/
def exMetadata : DeltaTableMetadata :=
  { id := "0", name := "t", format := { provider := "parquet", options := [] },
    schema_string := "", partition_columns := [], configuration := [] }

/-- Concrete table state used to evaluate `delete` on a no-match predicate. -/
def exState : TableState Nat :=
  { logs := [[Action.metadata exMetadata], [Action.add "f" [] 1 0 true]],
    baseDirCount := 2,
    contents := fun _ => [1] }

/-- C2 counterexample: on a concrete two-version table with one live file
and a predicate matching no row, delete changes the number of entries in
the log directory, refuting the claim as stated. -/
theorem delete_no_match_appends_log :
    (delete (fun _ : Nat => false) (fun _ => 0) 0 exState).state.logs.length
      ≠ exState.logs.length := by
  decide

/-- C2 witness: the amended theorem evaluated at the concrete state. -/
theorem delete_no_match_witness :
    (∀ f ∈ get_datafiles exState.logs, ∀ r ∈ exState.contents f,
      (fun _ : Nat => false) r = false) ∧
    (delete (fun _ : Nat => false) (fun _ => 0) 0 exState).newDataFiles = [] ∧
    (delete (fun _ : Nat => false) (fun _ => 0) 0 exState).newLog = [] ∧
    (delete (fun _ : Nat => false) (fun _ => 0) 0 exState).state.logs.length
        = exState.logs.length + 1 :=
  ⟨by decide,
   (delete_no_match Nat _ _ 0 exState (by decide)).1,
   (delete_no_match Nat _ _ 0 exState (by decide)).2.1,
   (delete_no_match Nat _ _ 0 exState (by decide)).2.2.2.2⟩

/-- C3 witness: a version-0 file whose JSON is a bare string is rejected
with `InvalidTable`. -/
theorem read_table_spec_witness :
    read_table (fun _ => some (some (Json.str "x"))) = .error .InvalidTable :=
  read_table_spec.2.2 (fun _ => some (some (Json.str "x"))) (some (Json.str "x")) rfl
    (fun m hm => by simp [decodeAction] at hm)

/-- C5 witness: the unknown keyword NOT_A_TYPE fails schema construction
and table creation with `InvalidType` and no filesystem writes. -/
theorem from_sql_invalid_type_witness :
    DeltaTableSchema.from_sql [("x", "NOT_A_TYPE")] = .error .InvalidType ∧
    create_table "u" "t" [("x", "NOT_A_TYPE")] false = ([], .error .InvalidType) :=
  from_sql_invalid_type.2 "u" "t" [("x", "NOT_A_TYPE")] false
    ⟨("x", "NOT_A_TYPE"), by decide, by decide⟩

/-- C6 witness: duplicate column name x with resolvable types INT and TEXT
fails table creation with `InvalidTable`. -/
theorem schema_is_valid_spec_witness :
    create_table "u" "t" [("x", "INT"), ("x", "TEXT")] false = ([], .error .InvalidTable) :=
  schema_is_valid_spec.2 "u" "t" [("x", "INT"), ("x", "TEXT")] false (by decide) (by decide)

end Delta
